import Mathlib

/-!
Verification development for the md-rag-mcp repository: the semantic-search
indexing and retrieval pipeline.

Shallow embedding conventions:
* Python strings are modelled as `List Char` (`Text`); document metadata
  mappings as association lists `List (String × String)` with `dict.get`
  modelled by `mget`/`mgetD` (metadata values are modelled as strings; no
  claim depends on a non-string metadata value).
* External collaborators are modelled as data: the vector store is a list of
  records plus, per query, its distance-ranked candidate list; filesystem
  walking is a list of file entries with an mtime and a parse outcome;
  similarity distances are carried opaquely as `Int` (they are never
  computed, only copied).
* Fallible external calls are modelled with `Option`/`Except`; a raised
  exception caught by the Python code corresponds to the `.error` branch.
* Bounded-fuel recursion is used for a few scans whose Python counterparts
  are `while`-style loops; the fuel passed by the wrappers always exceeds
  the recursion depth, so the translations compute the same results while
  staying structurally recursive (hence kernel-evaluable).
-/

deriving instance DecidableEq for Except

namespace MdRagMcp

/-- Python strings, modelled as lists of characters. -/
abbrev Text := List Char

/-- A metadata dictionary (string keys, scalar values modelled as strings). -/
abbrev Metadata := List (String × String)

/-- `d.get(k)` on a metadata dictionary: first binding of the key wins
(assignments in the source are modelled by consing the new binding in front). -/
def mget : Metadata → String → Option String
  | [], _ => none
  | (k, v) :: rest, key => if k = key then some v else mget rest key

/-- `d.get(k, default)` on a metadata dictionary. -/
def mgetD (m : Metadata) (key dflt : String) : String :=
  (mget m key).getD dflt

/-- A parsed markdown file (`frontmatter.Post`): YAML metadata plus body text. -/
structure Post where
  metadata : Metadata
  content : Text
deriving DecidableEq, Repr

namespace RagSearch

/-! ## rag_search.py — configuration and the text splitter

`split_docs` delegates the actual splitting to langchain's
`RecursiveCharacterTextSplitter`, constructed with `chunk_size = CHUNK_SIZE`,
`chunk_overlap = CHUNK_OVERLAP`, `length_function = len`,
`is_separator_regex = False` and otherwise default parameters
(separators `["\n\n", "\n", " ", ""]`, `keep_separator = True`,
`strip_whitespace = True`).  The definitions below are a translation of that
splitter (`_split_text`, `_split_text_with_regex`, `_merge_splits`,
`_join_docs`) specialised to literal (regex-escaped) separators. -/

/-- `CHUNK_SIZE = 500` (max characters per chunk). -/
def CHUNK_SIZE : Int := 500

/-- `CHUNK_OVERLAP = 50` (characters of overlap between chunks). -/
def CHUNK_OVERLAP : Int := 50

/-- Python `str.strip()` whitespace set (ASCII; the sources' separators and
the claims only involve ASCII whitespace). -/
def pyIsSpace (c : Char) : Bool :=
  c = ' ' || c = '\t' || c = '\n' || c = '\r' || c = '\x0b' || c = '\x0c'

/-- Python `str.strip()`. -/
def pyStrip (s : Text) : Text :=
  ((s.dropWhile pyIsSpace).reverse.dropWhile pyIsSpace).reverse

/-- Boolean prefix test (used to model matching a literal separator). -/
def isPre : Text → Text → Bool
  | [], _ => true
  | _ :: _, [] => false
  | a :: as, b :: bs => a == b && isPre as bs

/-- `re.search(re.escape(sep), text)` for a literal separator: does `sep`
occur as a contiguous substring of `text`? -/
def containsSub (sep : Text) : Text → Bool
  | [] => isPre sep []
  | c :: rest => isPre sep (c :: rest) || containsSub sep rest

/-- Splitting on the leftmost, non-overlapping occurrences of a nonempty
literal separator (the pieces between occurrences, in order).  `fuel` bounds
the scan; the wrapper passes `text.length`, which always suffices. -/
def splitOnAux (sep : Text) : Nat → Text → Text → List Text
  | _, acc, [] => [acc.reverse]
  | 0, acc, rest => [acc.reverse ++ rest]
  | fuel + 1, acc, c :: rest =>
    if isPre sep (c :: rest) then
      acc.reverse :: splitOnAux sep fuel [] ((c :: rest).drop sep.length)
    else
      splitOnAux sep fuel (c :: acc) rest

/-- Pieces of `text` between occurrences of the nonempty separator `sep`. -/
def splitOnText (sep text : Text) : List Text :=
  splitOnAux sep text.length [] text

/-- `_split_text_with_regex(text, re.escape(sep), keep_separator=True)`:
split on the separator keeping it attached to the following piece, drop empty
pieces; the empty separator splits into single characters. -/
def splitWithSep (sep text : Text) : List Text :=
  if sep = [] then text.map (fun c => [c])
  else
    match splitOnText sep text with
    | [] => []
    | p :: ps => (p :: ps.map (fun q => sep ++ q)).filter (fun q => !q.isEmpty)

/-- Python `separator.join(docs)`. -/
def pyJoin (sep : Text) : List Text → Text
  | [] => []
  | [d] => d
  | d :: d' :: rest => d ++ sep ++ pyJoin sep (d' :: rest)

/-- `_join_docs(docs, separator)`: join, strip whitespace, drop if empty. -/
def joinDocs (docsL : List Text) (sep : Text) : Option Text :=
  let text := pyStrip (pyJoin sep docsL)
  if text = [] then none else some text

/-- The `while` loop inside `_merge_splits` that pops the front of
`current_doc` until the running total is within the overlap budget.
(`dLen` is the length of the split about to be appended.)  Structural on
`current_doc`; when `current_doc` is empty the running total is `0` by the
loop invariant and the Python condition is false, matching the base case. -/
def popLoop (chunkSize chunkOverlap sepLen dLen : Int) :
    List Text → Int → List Text × Int
  | [], total => ([], total)
  | x :: rest, total =>
    if total > chunkOverlap ∨
        (total + dLen + (if rest ≠ [] then sepLen else 0) > chunkSize ∧ total > 0) then
      popLoop chunkSize chunkOverlap sepLen dLen rest
        (total - ((x.length : Int) + (if rest ≠ [] then sepLen else 0)))
    else (x :: rest, total)

/-- The body of `_merge_splits`: fold the splits into chunks of joined text of
at most `chunkSize` characters, carrying an overlap of up to `chunkOverlap`
characters of previous splits. -/
def mergeGo (chunkSize chunkOverlap sepLen : Int) (sep : Text) :
    List Text → List Text → List Text → Int → List Text
  | [], docs, cur, _ => docs ++ (joinDocs cur sep).toList
  | d :: rest, docs, cur, total =>
    if total + (d.length : Int) + (if cur ≠ [] then sepLen else 0) > chunkSize then
      if cur ≠ [] then
        let docs' := docs ++ (joinDocs cur sep).toList
        let pr := popLoop chunkSize chunkOverlap sepLen (d.length : Int) cur total
        mergeGo chunkSize chunkOverlap sepLen sep rest docs' (pr.1 ++ [d])
          (pr.2 + (d.length : Int) + (if pr.1 ≠ [] then sepLen else 0))
      else
        mergeGo chunkSize chunkOverlap sepLen sep rest docs (cur ++ [d])
          (total + (d.length : Int) + (if cur ≠ [] then sepLen else 0))
    else
      mergeGo chunkSize chunkOverlap sepLen sep rest docs (cur ++ [d])
        (total + (d.length : Int) + (if cur ≠ [] then sepLen else 0))

/-- `_merge_splits(splits, separator)`. -/
def merge_splits (chunkSize chunkOverlap : Int) (splits : List Text) (sep : Text) :
    List Text :=
  mergeGo chunkSize chunkOverlap (sep.length : Int) sep splits [] [] 0

/-- The separator-selection loop at the top of `_split_text`: first separator
that is empty or occurs in the text wins; `last` is `separators[-1]`, the
default when no separator matches. -/
def chooseSep : List Text → Text → Text → Text × List Text
  | [], _, last => (last, [])
  | s :: rest, text, last =>
    if s = [] then ([], [])
    else if containsSub s text then (s, rest)
    else chooseSep rest text last

/-- `_split_text(text, separators)`.  Structural on `fuel`, which bounds the
recursion depth over the (strictly shrinking) remaining separator list; the
wrapper passes the full separator count, which always suffices.  The loop
accumulating "good" (short-enough) splits and flushing them through
`_merge_splits` is expressed as a left fold with state
`(finished chunks, pending good splits)`; with `keep_separator = True` the
merge separator is the empty string. -/
def splitTextAux (chunkSize chunkOverlap : Int) : Nat → List Text → Text → List Text
  | 0, _, text => [text]
  | fuel + 1, seps, text =>
    let sel := chooseSep seps text (seps.getLastD [])
    let splits := splitWithSep sel.1 text
    let hasNew : Bool := !sel.2.isEmpty
    let res := splits.foldl
      (fun st s =>
        if (s.length : Int) < chunkSize then (st.1, st.2 ++ [s])
        else
          (st.1 ++ (if st.2 = [] then [] else merge_splits chunkSize chunkOverlap st.2 [])
                ++ (if hasNew then splitTextAux chunkSize chunkOverlap fuel sel.2 s else [s]),
           []))
      (([], []) : List Text × List Text)
    res.1 ++ (if res.2 = [] then [] else merge_splits chunkSize chunkOverlap res.2 [])

/-- The splitter's default separator list `["\n\n", "\n", " ", ""]`. -/
def defaultSeparators : List Text := [['\n', '\n'], ['\n'], [' '], []]

/-- `text_splitter.split_text(text)` as configured in `split_docs`. -/
def split_text (text : Text) : List Text :=
  splitTextAux CHUNK_SIZE CHUNK_OVERLAP defaultSeparators.length defaultSeparators text

/-! ## split_docs -/

/-- A chunk produced by `split_docs`: id, text, metadata. -/
structure Chunk where
  id : String
  text : Text
  metadata : Metadata
deriving DecidableEq, Repr

/-- `split_docs(documents)`: split each document's body, attach per-chunk
metadata (`chunk_index`, `chunk_id` — the chunk index is a Python int, shown
here in its string representation) on top of a copy of the document metadata,
and form the id `f"{source}_{i}"`. -/
def split_docs (documents : List Post) : List Chunk :=
  (documents.map (fun doc =>
    ((split_text doc.content).enum).map (fun p =>
      let source := mgetD doc.metadata "source" "unknown"
      let cid := source ++ "_" ++ toString p.1
      { id := cid, text := p.2,
        metadata := ("chunk_id", cid) :: ("chunk_index", toString p.1) :: doc.metadata }))).flatten

/-! ## The fixed-stride splitter described by the specification (§4.1) -/

/-- Modelled from the spec (§4.1), for comparison with `split_text`:
"produce the longest prefix ≤ CHUNK_SIZE characters; advance the start
position by CHUNK_SIZE − CHUNK_OVERLAP; repeat until the remaining text is
exhausted", with "empty body → zero chunks" and a body that fits in one chunk
producing exactly that chunk.  `fuel` (instantiated with the text length)
keeps the recursion structural; each step consumes 450 characters, so the
fuel always suffices. -/
def strideChunksAux (chunkSize chunkOverlap : Nat) : Nat → Text → List Text
  | _, [] => []
  | 0, s => [s]
  | fuel + 1, s =>
    if s.length ≤ chunkSize then [s]
    else s.take chunkSize :: strideChunksAux chunkSize chunkOverlap fuel (s.drop (chunkSize - chunkOverlap))

/-- The spec's fixed-stride chunking at the source's constants (500/50). -/
def strideChunks (s : Text) : List Text := strideChunksAux 500 50 s.length s

/-- Each character of a text as a one-character split (the shape
`_split_text_with_regex` produces for the empty separator). -/
def sing (s : Text) : List Text := s.map (fun c => [c])

end RagSearch

namespace LegacyMcp

/-! ## python_legacy/mcp/journal_rag_mcp.py — the retriever

The ChromaDB collection is modelled by
* `records` (for `collection.get`): the stored records, each with id, text
  and metadata, and
* per query, a distance-ranked candidate list (for `collection.query`):
  `collection.query(embedding, m)` returns the first `m` entries of that
  ranking, each bundling the parallel `ids`/`documents`/`metadatas`/
  `distances` entries of the Chroma result dict into one `Candidate`.
Distances are carried opaquely as `Int` (the code only copies them). -/

/-- One ranked candidate returned by `collection.query`. -/
structure Candidate where
  id : String
  text : Text
  metadata : Metadata
  distance : Int
deriving DecidableEq, Repr

/-- One stored record as returned by `collection.get`. -/
structure Record where
  id : String
  text : Text
  metadata : Metadata
deriving DecidableEq, Repr

/-- The deduplication key `metadata.get('source', '')` used by
`expand_context_for_results`. -/
def srcKey (c : Candidate) : String := mgetD c.metadata "source" ""

/-- `collection.get(where={"$and":[{"source":{"$eq":src}},
{"chunk_type":{"$eq":"full_entry"}}]})`: the stored records whose metadata
matches both equalities. -/
def chromaGet (records : List Record) (src : String) : List Record :=
  records.filter (fun r =>
    decide (mget r.metadata "source" = some src ∧
            mget r.metadata "chunk_type" = some "full_entry"))

/-- The body of the expansion loop for one candidate: for a
`"partial_entry"` chunk, try the `full_entry` sibling fetch (`getFn`; its
`.error` branch models `collection.get` raising, which the code catches);
substitute the first fetched record's text/metadata keeping the candidate's
distance, or fall back to the original candidate; any other `chunk_type`
(or none) keeps the candidate as-is. -/
def expandCandidate (getFn : String → Except Unit (List Record)) (c : Candidate) :
    Candidate :=
  if mget c.metadata "chunk_type" = some "partial_entry" then
    match getFn (srcKey c) with
    | .error _ => c
    | .ok [] => c
    | .ok (r :: _) => { id := r.id, text := r.text, metadata := r.metadata, distance := c.distance }
  else c

/-- The main loop of `expand_context_for_results`: walk the ranked candidates
carrying the `seen_sources` set (as a list) and the `results_added` counter;
break once `n` results are accumulated (including the redundant re-checks in
the source, which are order-equivalent to the first check), skip already-seen
sources, otherwise emit the (possibly expanded) candidate. -/
def expandGo (getFn : String → Except Unit (List Record)) (n : Int) :
    List Candidate → List String → Int → List Candidate
  | [], _, _ => []
  | c :: rest, seen, added =>
    if added ≥ n then []
    else
      if srcKey c ∈ seen then expandGo getFn n rest seen added
      else if added ≥ n then []
      else
        let emitted := expandCandidate getFn c
        if added + 1 ≥ n then [emitted]
        else emitted :: expandGo getFn n rest (srcKey c :: seen) (added + 1)

/-- `expand_context_for_results(collection, results, n_results)`: empty input
is returned unchanged; otherwise run the loop and apply the "emergency
truncation" to `n_results` entries. -/
def expand_context_for_results (getFn : String → Except Unit (List Record))
    (results : List Candidate) (n : Int) : List Candidate :=
  if results = [] then results
  else
    let out := expandGo getFn n results [] 0
    if (out.length : Int) > n then out.take n.toNat else out

/-- One formatted result of `perform_enhanced_rag_query`. -/
structure FormattedResult where
  source : String
  date : String
  text : Text
  distance : Int
  chunk_type : String
  context_note : String
deriving DecidableEq, Repr

/-- Formatting of one expanded entry in `perform_enhanced_rag_query`:
`source`/`date`/`chunk_type` resolved from the metadata with the source's
defaults, and the contextual note from the chunk type. -/
def formatOne (c : Candidate) : FormattedResult :=
  let source := mgetD c.metadata "source" "N/A"
  let ct := mgetD c.metadata "chunk_type" "unknown"
  { source := source,
    date := mgetD c.metadata "date" (mgetD c.metadata "created" "Unknown date"),
    text := c.text,
    distance := c.distance,
    chunk_type := ct,
    context_note :=
      if ct = "full_entry" then "Full entry from " ++ source
      else "Excerpt from " ++ source }

/-- `perform_enhanced_rag_query(query_text, n_results)` after the query has
been embedded: `ranking` is the store's distance-ranked candidate list for
the embedded query; the code fetches `n_results * 2` candidates, expands and
deduplicates them, formats the survivors, and applies the two final
truncations to `n_results`. -/
def perform_enhanced_rag_query (ranking : List Candidate) (records : List Record)
    (n : Int) : List FormattedResult :=
  let raw := ranking.take (n * 2).toNat
  let expanded :=
    expand_context_for_results (fun src => .ok (chromaGet records src)) raw n
  let formatted := expanded.map formatOne
  let final1 := if (formatted.length : Int) > n then formatted.take n.toNat else formatted
  if (final1.length : Int) ≠ n then final1.take n.toNat else final1

/-- A JSON-RPC error object. -/
structure McpError where
  code : Int
  message : String
deriving DecidableEq, Repr

/-- Outcome of the `query_journal` tool call, instrumented with whether the
embedding model and the index store were contacted (in the source, both
calls happen unconditionally on the non-rejected path, before any result is
produced). -/
structure QueryOutcome where
  response : Except McpError (List FormattedResult)
  embedCalled : Bool
  storeQueried : Bool
deriving DecidableEq, Repr

/-- The `query_journal` branch of the `tools/call` dispatcher: a falsy
(empty) query string or a non-positive `n_results` is rejected with error
`-32602` before anything is embedded or queried; otherwise
`perform_enhanced_rag_query` runs, embedding the stripped query text and
querying the collection. -/
def handle_query_journal (ranking : List Candidate) (records : List Record)
    (query : String) (nResults : Int) : QueryOutcome :=
  if query = "" then
    { response := .error ⟨-32602, "Invalid params: 'query' argument is missing or not a string."⟩,
      embedCalled := false, storeQueried := false }
  else if nResults < 1 then
    { response := .error ⟨-32602, "Invalid params: 'n_results' must be a positive integer (default: 10)."⟩,
      embedCalled := false, storeQueried := false }
  else
    { response := .ok (perform_enhanced_rag_query ranking records nResults),
      embedCalled := true, storeQueried := true }

/-- The number of distinct deduplication keys (`metadata.get('source', '')`)
among a candidate list that are not yet in `seen`, counted the way the
expansion loop encounters them. -/
def countNew : List Candidate → List String → Nat
  | [], _ => 0
  | c :: rest, seen =>
    if srcKey c ∈ seen then countNew rest seen
    else countNew rest (srcKey c :: seen) + 1

/-- The number of distinct `source` values among a candidate list. -/
def distinctSourceCount (cands : List Candidate) : Nat :=
  ((cands.map srcKey).toFinset).card

end LegacyMcp

namespace Indexer

/-! ## The incremental indexer (src/code/mcp/journal_rag_mcp.py, and the
legacy variant under python_legacy/)

Filesystem walking, frontmatter parsing, model/store initialisation and the
batch upsert are external effects; they are modelled by an environment:
each discovered file carries its basename (for the `.endswith(".md")` test),
its path relative to the journal root, its mtime, and its parse outcome
(`none` models `frontmatter.load` raising, which the code logs and skips);
`indexChunksResult` is the outcome of `index_chunks` (`.error` models it
raising, `.ok b` its return value).  The watermark file is the explicit
state threaded through `update_journal_index`. -/

/-- `str.endswith(suffix)`. -/
def strEndsWith (s sfx : String) : Bool := sfx.data.isSuffixOf s.data

/-- One file seen while walking the journal directory. -/
structure MdFile where
  filename : String
  relpath : String
  mtime : Int
  parse : Option Post
deriving DecidableEq, Repr

/-- `if 'source' not in post.metadata: post.metadata['source'] = rel_path`. -/
def ensureSource (relpath : String) (p : Post) : Post :=
  if mget p.metadata "source" = none then
    { p with metadata := ("source", relpath) :: p.metadata }
  else p

/-- `load_markdown_docs_since(directory_path, timestamp)`: walk the files,
keep `.md` files whose mtime is strictly greater than the timestamp, parse
them (skipping files whose parse raises) and default their `source`
metadata to the relative path. -/
def load_markdown_docs_since (files : List MdFile) (timestamp : Int) : List Post :=
  files.filterMap (fun f =>
    if strEndsWith f.filename ".md" then
      if f.mtime > timestamp then (f.parse).map (ensureSource f.relpath) else none
    else none)

/-- `load_markdown_docs(directory_path)` (from rag_search.py): like
`load_markdown_docs_since` but with no mtime condition. -/
def load_markdown_docs (files : List MdFile) : List Post :=
  files.filterMap (fun f =>
    if strEndsWith f.filename ".md" then (f.parse).map (ensureSource f.relpath)
    else none)

/-- The external effects visible to one indexing run. -/
structure IndexEnv where
  files : List MdFile
  embedInitOk : Bool
  storeInitOk : Bool
  indexChunksResult : Except Unit Bool
  now : Int
deriving DecidableEq, Repr

/-- The persisted watermark file (`last_indexed_time.txt`); `none` models an
absent or unreadable file. -/
structure WatermarkState where
  lastIndexed : Option Int
deriving DecidableEq, Repr

/-- `get_last_indexed_time()`: the stored timestamp, `0` when the file is
absent or unreadable. -/
def get_last_indexed_time (st : WatermarkState) : Int := st.lastIndexed.getD 0

/-- Result of `update_journal_index`, instrumented with whether
`split_docs` and `index_chunks` (embedding + upsert) were reached. -/
structure IndexOutcome where
  success : Bool
  message : String
  state : WatermarkState
  splitCalled : Bool
  indexCalled : Bool
deriving DecidableEq, Repr

/-- The shared body of `update_journal_index` after the `rag_search` import
succeeded (both servers' bodies are line-for-line identical from this point
on): select the documents, split, initialise, index, and advance the
watermark only upon `index_chunks` returning `True`. -/
def indexFlow (env : IndexEnv) (st : WatermarkState) (full_reindex : Bool) :
    IndexOutcome :=
  let documents :=
    if full_reindex then load_markdown_docs env.files
    else load_markdown_docs_since env.files (get_last_indexed_time st)
  if ¬full_reindex ∧ documents = [] then
    { success := true, message := "No new or modified journal entries found.",
      state := st, splitCalled := false, indexCalled := false }
  else
    let chunks := RagSearch.split_docs documents
    if chunks = [] then
      { success := true,
        message := "No chunks generated from " ++ toString documents.length ++ " files.",
        state := st, splitCalled := true, indexCalled := false }
    else if ¬(env.embedInitOk ∧ env.storeInitOk) then
      { success := false, message := "Failed to initialize embedding model or vector store.",
        state := st, splitCalled := true, indexCalled := false }
    else
      match env.indexChunksResult with
      | .ok true =>
        { success := true,
          message := "Successfully indexed " ++ toString chunks.length ++ " chunks from "
            ++ toString documents.length ++ " files.",
          state := ⟨some env.now⟩, splitCalled := true, indexCalled := true }
      | .ok false =>
        { success := false, message := "Indexing failed.",
          state := st, splitCalled := true, indexCalled := true }
      | .error _ =>
        { success := false, message := "Error updating index: index_chunks raised",
          state := st, splitCalled := true, indexCalled := true }

/-- The module-level names defined by `scripts/rag_search.py` (imports,
constants, functions). -/
def ragSearchTopLevelNames : List String :=
  ["os", "frontmatter", "RecursiveCharacterTextSplitter", "SentenceTransformer",
   "chromadb", "torch", "Console", "console", "PROJECT_ROOT", "DATA_DIRECTORY",
   "CHROMA_DB_PATH", "CHROMA_COLLECTION_NAME", "EMBEDDING_MODEL_NAME",
   "CHUNK_SIZE", "CHUNK_OVERLAP", "load_markdown_docs", "split_docs",
   "initialize_embedding_model", "initialize_vector_store", "index_chunks",
   "query_rag"]

/-- The names the current server's `update_journal_index` imports from
`rag_search`. -/
def currentImportedNames : List String :=
  ["load_markdown_docs", "split_docs", "initialize_embedding_model",
   "initialize_vector_store", "index_chunks"]

/-- The names the legacy server's `update_journal_index` imports from
`rag_search` (including `create_semantic_chunks`, which `rag_search.py`
does not define). -/
def legacyImportedNames : List String :=
  ["load_markdown_docs", "split_docs", "initialize_embedding_model",
   "initialize_vector_store", "index_chunks", "create_semantic_chunks"]

/-- The message returned when the `from rag_search import (...)` statement
raises `ImportError` (the Python text interpolates the exception). -/
def importErrorMessage : String :=
  "Error importing from rag_search.py: cannot import name create_semantic_chunks from rag_search"

/-- `update_journal_index(full_reindex)` of the current server
(src/code/mcp/journal_rag_mcp.py): its import list resolves, so it always
runs the shared flow. -/
def update_journal_index (env : IndexEnv) (st : WatermarkState) (full_reindex : Bool) :
    IndexOutcome :=
  if currentImportedNames.all (fun nm => ragSearchTopLevelNames.contains nm) then
    indexFlow env st full_reindex
  else
    { success := false, message := importErrorMessage,
      state := st, splitCalled := false, indexCalled := false }

/-- `update_journal_index(full_reindex)` of the legacy server
(python_legacy/mcp/journal_rag_mcp.py): the import of
`create_semantic_chunks` fails, which the code catches, returning
`(False, import-error message)` before anything else runs. -/
def legacy_update_journal_index (env : IndexEnv) (st : WatermarkState)
    (full_reindex : Bool) : IndexOutcome :=
  if legacyImportedNames.all (fun nm => ragSearchTopLevelNames.contains nm) then
    indexFlow env st full_reindex
  else
    { success := false, message := importErrorMessage,
      state := st, splitCalled := false, indexCalled := false }

end Indexer

/-! # Theorems -/

open RagSearch LegacyMcp Indexer

/-- C2: the claim says `split_docs` tags a single-chunk document's chunk with
`chunk_type = "full_entry"`.  Evaluating the code at the failing input — a
document with empty frontmatter and one-character body `"a"`, which produces
exactly one chunk — shows the chunk's metadata carries only `chunk_id` and
`chunk_index`: `split_docs` never sets a `chunk_type` key on any chunk, so
the single chunk is not tagged `"full_entry"` (nor is anything ever tagged
`"partial_entry"`). -/
theorem split_docs_leaves_chunk_type_unset :
    RagSearch.split_docs [⟨[], ['a']⟩] =
      [⟨"unknown_0", ['a'], [("chunk_id", "unknown_0"), ("chunk_index", "0")]⟩] ∧
    (RagSearch.split_docs [⟨[], ['a']⟩]).all
      (fun ch => (mget ch.metadata "chunk_type").isNone) = true :=
  ⟨rfl, rfl⟩

/-- C10: the legacy server's `update_journal_index` imports
`create_semantic_chunks` from `rag_search`, a name that module does not
define; the `ImportError` is caught and the function returns
`(False, import-error message)` for every value of `full_reindex`, with the
watermark untouched and no chunking (`split_docs`) and no
embedding/upsert (`index_chunks`) performed. -/
theorem legacy_update_import_error (env : IndexEnv) (st : WatermarkState) (full : Bool) :
    Indexer.legacy_update_journal_index env st full =
      ⟨false, Indexer.importErrorMessage, st, false, false⟩ := by
  have h : (legacyImportedNames.all (fun nm => ragSearchTopLevelNames.contains nm)) = false := by
    decide
  simp only [Indexer.legacy_update_journal_index, h, Bool.false_eq_true, if_false]

/-- C6 counterexample: the claim says a whitespace-only query is rejected
without embedding the query and without contacting the store; but at query
`" "` (whitespace-only, as the last conjunct records) with `k = 5` the
dispatcher's `not query` test is false, so `perform_enhanced_rag_query` runs:
the query is embedded, the store is queried, and an ordinary (non-error)
result is returned. -/
theorem whitespace_query_contacts_store_cex :
    (LegacyMcp.handle_query_journal [] [] " " 5).storeQueried = true ∧
    (LegacyMcp.handle_query_journal [] [] " " 5).embedCalled = true ∧
    (LegacyMcp.handle_query_journal [] [] " " 5).response = .ok [] ∧
    (" ").data.all RagSearch.pyIsSpace = true :=
  ⟨rfl, rfl, rfl, rfl⟩

/-- C6 amended: only a falsy (empty) query string is rejected — with the
client-input error `-32602`, before the query is embedded and before the
store is contacted; every nonempty query (whitespace-only ones included)
proceeds to embed the stripped query text and to query the store. -/
theorem empty_query_rejected (ranking : List Candidate) (records : List Record)
    (n : Int) (h : 1 ≤ n) :
    (LegacyMcp.handle_query_journal ranking records "" n).response =
      .error ⟨-32602, "Invalid params: 'query' argument is missing or not a string."⟩ ∧
    (LegacyMcp.handle_query_journal ranking records "" n).embedCalled = false ∧
    (LegacyMcp.handle_query_journal ranking records "" n).storeQueried = false ∧
    (∀ q : String, q ≠ "" →
      (LegacyMcp.handle_query_journal ranking records q n).embedCalled = true ∧
      (LegacyMcp.handle_query_journal ranking records q n).storeQueried = true) := by
  refine ⟨rfl, rfl, rfl, ?_⟩
  intro q hq
  have hn : ¬(n < 1) := by omega
  simp [LegacyMcp.handle_query_journal, hq, hn]

/-- C6 amended, witness at `n = 3`. -/
theorem empty_query_rejected_witness :
    (1 : Int) ≤ 3 ∧
    ((LegacyMcp.handle_query_journal [] [] "" 3).response =
      .error ⟨-32602, "Invalid params: 'query' argument is missing or not a string."⟩ ∧
    (LegacyMcp.handle_query_journal [] [] "" 3).embedCalled = false ∧
    (LegacyMcp.handle_query_journal [] [] "" 3).storeQueried = false ∧
    (∀ q : String, q ≠ "" →
      (LegacyMcp.handle_query_journal [] [] q 3).embedCalled = true ∧
      (LegacyMcp.handle_query_journal [] [] q 3).storeQueried = true)) :=
  ⟨by decide, empty_query_rejected [] [] 3 (by decide)⟩

/-- C9 counterexample: the claim says the `date` field falls back to the
sentinel `"unknown"`; a search over a store whose sole candidate has neither
a `date` nor a `created` metadata key returns the sentinel
`"Unknown date"`, which differs from `"unknown"` (the code's `'unknown'`
default belongs to `chunk_type`, not to `date`). -/
theorem date_sentinel_cex :
    (LegacyMcp.perform_enhanced_rag_query [⟨"a.md_0", ['t'], [("source", "a.md")], 0⟩] [] 1).map
        LegacyMcp.FormattedResult.date = ["Unknown date"] ∧
    "Unknown date" ≠ "unknown" :=
  ⟨rfl, by decide⟩

set_option maxRecDepth 100000 in
/-- C5 counterexample: the claim says every chunk is the longest prefix of
the remaining text of at most `CHUNK_SIZE` characters, with the start
advancing by `CHUNK_SIZE − CHUNK_OVERLAP` and consecutive chunks overlapping
by exactly `CHUNK_OVERLAP`.  On the 501-character body
`250·'x' ++ " " ++ 250·'y'` the splitter (which prefers space boundaries)
returns the two chunks `250·'x'` and `250·'y'`: the first chunk is 250
characters although 501 remain (not the longest ≤ 500-character prefix), and
the two chunks overlap by 0 characters, so the output differs from the
fixed-stride chunking `strideChunks` the claim describes. -/
theorem split_not_fixed_stride_cex :
    RagSearch.split_text (List.replicate 250 'x' ++ [' '] ++ List.replicate 250 'y') =
      [List.replicate 250 'x', List.replicate 250 'y'] ∧
    RagSearch.strideChunks (List.replicate 250 'x' ++ [' '] ++ List.replicate 250 'y') =
      [(List.replicate 250 'x' ++ [' '] ++ List.replicate 250 'y').take 500,
       (List.replicate 250 'x' ++ [' '] ++ List.replicate 250 'y').drop 450] ∧
    RagSearch.split_text (List.replicate 250 'x' ++ [' '] ++ List.replicate 250 'y') ≠
      RagSearch.strideChunks (List.replicate 250 'x' ++ [' '] ++ List.replicate 250 'y') := by
  refine ⟨by decide, by decide, by decide⟩

/-- C3: for a candidate whose `chunk_type` is `"partial_entry"`, the
expansion step fetches the records with the candidate's `source` and
`chunk_type = "full_entry"`; if the fetch raises, or matches nothing, the
candidate is emitted unchanged; if it matches, the first fetched record's
text and metadata are substituted while the candidate's distance is kept —
and every record the store fetch can return does carry the candidate's
`source` and `chunk_type = "full_entry"`. -/
theorem expansion_substitutes_full_entry (records : List Record)
    (getFn : String → Except Unit (List Record)) (c : Candidate)
    (hpt : mget c.metadata "chunk_type" = some "partial_entry") :
    (∀ e, getFn (srcKey c) = .error e → expandCandidate getFn c = c) ∧
    (getFn (srcKey c) = .ok [] → expandCandidate getFn c = c) ∧
    (∀ r rs, getFn (srcKey c) = .ok (r :: rs) →
      expandCandidate getFn c = ⟨r.id, r.text, r.metadata, c.distance⟩) ∧
    (∀ r, r ∈ chromaGet records (srcKey c) →
      mget r.metadata "source" = some (srcKey c) ∧
      mget r.metadata "chunk_type" = some "full_entry") := by
  refine ⟨?_, ?_, ?_, ?_⟩
  · intro e he; simp [expandCandidate, hpt, he]
  · intro h0; simp [expandCandidate, hpt, h0]
  · intro r rs hr; simp [expandCandidate, hpt, hr]
  · intro r hr
    have h := List.mem_filter.1 hr
    exact of_decide_eq_true h.2

/-- C3, witness: a concrete partial-entry candidate, once with an empty
fetch result and once against a one-record store. -/
theorem expansion_substitutes_full_entry_witness :
    mget [("source", "a.md"), ("chunk_type", "partial_entry")] "chunk_type" =
      some "partial_entry" ∧
    ((∀ e, (fun _ : String => (.ok [] : Except Unit (List Record))) (srcKey ⟨"a.md_0", ['t'], [("source", "a.md"), ("chunk_type", "partial_entry")], 7⟩) = .error e →
        expandCandidate (fun _ => .ok []) ⟨"a.md_0", ['t'], [("source", "a.md"), ("chunk_type", "partial_entry")], 7⟩ =
          ⟨"a.md_0", ['t'], [("source", "a.md"), ("chunk_type", "partial_entry")], 7⟩) ∧
    ((fun _ : String => (.ok [] : Except Unit (List Record))) (srcKey ⟨"a.md_0", ['t'], [("source", "a.md"), ("chunk_type", "partial_entry")], 7⟩) = .ok [] →
        expandCandidate (fun _ => .ok []) ⟨"a.md_0", ['t'], [("source", "a.md"), ("chunk_type", "partial_entry")], 7⟩ =
          ⟨"a.md_0", ['t'], [("source", "a.md"), ("chunk_type", "partial_entry")], 7⟩) ∧
    (∀ r rs, (fun _ : String => (.ok [] : Except Unit (List Record))) (srcKey ⟨"a.md_0", ['t'], [("source", "a.md"), ("chunk_type", "partial_entry")], 7⟩) = .ok (r :: rs) →
        expandCandidate (fun _ => .ok []) ⟨"a.md_0", ['t'], [("source", "a.md"), ("chunk_type", "partial_entry")], 7⟩ =
          ⟨r.id, r.text, r.metadata, 7⟩) ∧
    (∀ r, r ∈ chromaGet [⟨"a.md_full", ['F'], [("source", "a.md"), ("chunk_type", "full_entry")]⟩]
        (srcKey ⟨"a.md_0", ['t'], [("source", "a.md"), ("chunk_type", "partial_entry")], 7⟩) →
      mget r.metadata "source" = some (srcKey ⟨"a.md_0", ['t'], [("source", "a.md"), ("chunk_type", "partial_entry")], 7⟩) ∧
      mget r.metadata "chunk_type" = some "full_entry")) :=
  ⟨by decide,
   expansion_substitutes_full_entry
     [⟨"a.md_full", ['F'], [("source", "a.md"), ("chunk_type", "full_entry")]⟩]
     (fun _ => .ok [])
     ⟨"a.md_0", ['t'], [("source", "a.md"), ("chunk_type", "partial_entry")], 7⟩
     (by decide)⟩

/-- Membership survives the source's conditional truncations. -/
theorem mem_of_mem_ite_take {α : Type} (P : Prop) [Decidable P] (k : Nat)
    (l : List α) (a : α) (h : a ∈ (if P then l.take k else l)) : a ∈ l := by
  split at h
  · exact List.take_subset _ _ h
  · exact h

/-- C9 amended: every result of `perform_enhanced_rag_query` is formatted
from one emitted entry's metadata/text/distance: `source` is the metadata
`source` (default `"N/A"`), `date` is the metadata `date` falling back to
`created` falling back to the sentinel `"Unknown date"`, `chunk_type` is the
metadata `chunk_type` (default `"unknown"`), and the `context_note` reads
"Full entry from {source}" exactly when the chunk type is `"full_entry"` and
"Excerpt from {source}" otherwise. -/
theorem result_fields_resolved (ranking : List Candidate) (records : List Record)
    (n : Int) (r : FormattedResult)
    (hr : r ∈ LegacyMcp.perform_enhanced_rag_query ranking records n) :
    ∃ md t d, r =
      { source := mgetD md "source" "N/A",
        date := mgetD md "date" (mgetD md "created" "Unknown date"),
        text := t, distance := d,
        chunk_type := mgetD md "chunk_type" "unknown",
        context_note :=
          if mgetD md "chunk_type" "unknown" = "full_entry"
          then "Full entry from " ++ mgetD md "source" "N/A"
          else "Excerpt from " ++ mgetD md "source" "N/A" } := by
  simp only [LegacyMcp.perform_enhanced_rag_query] at hr
  have hr1 := mem_of_mem_ite_take _ _ _ _ hr
  have hr2 := mem_of_mem_ite_take _ _ _ _ hr1
  obtain ⟨c, _, hfc⟩ := List.mem_map.1 hr2
  exact ⟨c.metadata, c.text, c.distance, hfc.symm⟩

/-- C9 amended, witness: a one-candidate store whose result resolves all
fallbacks. -/
theorem result_fields_resolved_witness :
    (⟨"a.md", "Unknown date", ['t'], 0, "unknown", "Excerpt from a.md"⟩ : FormattedResult) ∈
      LegacyMcp.perform_enhanced_rag_query [⟨"a.md_0", ['t'], [("source", "a.md")], 0⟩] [] 1 ∧
    ∃ md t d, (⟨"a.md", "Unknown date", ['t'], 0, "unknown", "Excerpt from a.md"⟩ : FormattedResult) =
      { source := mgetD md "source" "N/A",
        date := mgetD md "date" (mgetD md "created" "Unknown date"),
        text := t, distance := d,
        chunk_type := mgetD md "chunk_type" "unknown",
        context_note :=
          if mgetD md "chunk_type" "unknown" = "full_entry"
          then "Full entry from " ++ mgetD md "source" "N/A"
          else "Excerpt from " ++ mgetD md "source" "N/A" } :=
  ⟨by decide, result_fields_resolved [⟨"a.md_0", ['t'], [("source", "a.md")], 0⟩] [] 1 _ (by decide)⟩

/-- Case analysis of `indexFlow`: an upsert that was reached but did not
return `True` makes the run fail and leaves the watermark state alone, and
the watermark state changes only on a successful upsert. -/
theorem indexFlow_watermark (env : IndexEnv) (st : WatermarkState) (full : Bool) :
    ((Indexer.indexFlow env st full).indexCalled = true →
      env.indexChunksResult ≠ .ok true →
      (Indexer.indexFlow env st full).success = false ∧
      (Indexer.indexFlow env st full).state = st) ∧
    ((Indexer.indexFlow env st full).state ≠ st →
      env.indexChunksResult = .ok true ∧
      (Indexer.indexFlow env st full).success = true ∧
      (Indexer.indexFlow env st full).indexCalled = true) := by
  unfold Indexer.indexFlow
  by_cases h1 : (¬full = true ∧ (if full = true then Indexer.load_markdown_docs env.files
      else Indexer.load_markdown_docs_since env.files (Indexer.get_last_indexed_time st)) = [])
  · rw [if_pos h1]; simp
  · rw [if_neg h1]
    by_cases h2 : RagSearch.split_docs (if full = true then Indexer.load_markdown_docs env.files
        else Indexer.load_markdown_docs_since env.files (Indexer.get_last_indexed_time st)) = []
    · rw [if_pos h2]; simp
    · rw [if_neg h2]
      by_cases h3 : ¬(env.embedInitOk = true ∧ env.storeInitOk = true)
      · rw [if_pos h3]; simp
      · rw [if_neg h3]
        rcases hicr : env.indexChunksResult with e | b
        · simp [hicr]
        · cases b <;> simp [hicr]

/-- C7: when the run reaches `index_chunks` and the batch upsert fails
(`index_chunks` returns `False` or raises), `update_journal_index` reports
failure and the persisted watermark is unchanged; conversely the watermark
state changes only when `index_chunks` was called and returned `True` and
the run reported success — it is written only after a successful upsert. -/
theorem watermark_unchanged_on_failed_upsert (env : IndexEnv) (st : WatermarkState)
    (full : Bool) :
    ((Indexer.update_journal_index env st full).indexCalled = true →
      env.indexChunksResult ≠ .ok true →
      (Indexer.update_journal_index env st full).success = false ∧
      (Indexer.update_journal_index env st full).state = st) ∧
    ((Indexer.update_journal_index env st full).state ≠ st →
      env.indexChunksResult = .ok true ∧
      (Indexer.update_journal_index env st full).success = true ∧
      (Indexer.update_journal_index env st full).indexCalled = true) := by
  have himp : (currentImportedNames.all (fun nm => ragSearchTopLevelNames.contains nm)) = true := by
    decide
  have hupd : Indexer.update_journal_index env st full = Indexer.indexFlow env st full := by
    simp only [Indexer.update_journal_index, himp, eq_self_iff_true, if_true]
  rw [hupd]
  exact indexFlow_watermark env st full

/-- C7, witness: a run over one modified parse-clean file whose upsert
reports failure leaves the watermark at its old value and fails. -/
theorem watermark_unchanged_on_failed_upsert_witness :
    (Indexer.update_journal_index ⟨[⟨"a.md", "a.md", 10, some ⟨[], ['h']⟩⟩], true, true, .ok false, 42⟩ ⟨some 3⟩ false).indexCalled = true ∧
    ((.ok false : Except Unit Bool) ≠ .ok true) ∧
    ((Indexer.update_journal_index ⟨[⟨"a.md", "a.md", 10, some ⟨[], ['h']⟩⟩], true, true, .ok false, 42⟩ ⟨some 3⟩ false).success = false ∧
     (Indexer.update_journal_index ⟨[⟨"a.md", "a.md", 10, some ⟨[], ['h']⟩⟩], true, true, .ok false, 42⟩ ⟨some 3⟩ false).state = ⟨some 3⟩) :=
  ⟨by decide, by decide,
   (watermark_unchanged_on_failed_upsert
      ⟨[⟨"a.md", "a.md", 10, some ⟨[], ['h']⟩⟩], true, true, .ok false, 42⟩ ⟨some 3⟩ false).1
     (by decide) (by decide)⟩

/-- C8: incremental selection is exactly the markdown files whose mtime is
strictly greater than the watermark (each then parsed, with `source`
defaulted to the relative path); the full-run loader selects every markdown
file with no mtime condition; a watermark at or above every mtime selects
zero files incrementally; and a full `update_journal_index` run's success
and message do not depend on the stored watermark at all. -/
theorem selection_policy_mtime_filter (files : List MdFile) (wm : Int) (env : IndexEnv) :
    (Indexer.load_markdown_docs_since files wm =
      (files.filter (fun f => Indexer.strEndsWith f.filename ".md" && decide (wm < f.mtime))).filterMap
        (fun f => (f.parse).map (Indexer.ensureSource f.relpath))) ∧
    (Indexer.load_markdown_docs files =
      (files.filter (fun f => Indexer.strEndsWith f.filename ".md")).filterMap
        (fun f => (f.parse).map (Indexer.ensureSource f.relpath))) ∧
    ((∀ f ∈ files, f.mtime ≤ wm) → Indexer.load_markdown_docs_since files wm = []) ∧
    (∀ st₁ st₂ : WatermarkState,
      (Indexer.update_journal_index env st₁ true).success =
        (Indexer.update_journal_index env st₂ true).success ∧
      (Indexer.update_journal_index env st₁ true).message =
        (Indexer.update_journal_index env st₂ true).message) := by
  have himp : (currentImportedNames.all (fun nm => ragSearchTopLevelNames.contains nm)) = true := by
    decide
  refine ⟨?_, ?_, ?_, ?_⟩
  · induction files with
    | nil => rfl
    | cons f fs ih =>
      by_cases h1 : Indexer.strEndsWith f.filename ".md" = true <;>
        by_cases h2 : wm < f.mtime <;>
          simp [Indexer.load_markdown_docs_since, List.filterMap_cons, List.filter_cons,
            h1, h2, ih, Indexer.load_markdown_docs_since] <;>
          cases f.parse <;> simp_all [Indexer.load_markdown_docs_since]
  · induction files with
    | nil => rfl
    | cons f fs ih =>
      by_cases h1 : Indexer.strEndsWith f.filename ".md" = true <;>
        simp [Indexer.load_markdown_docs, List.filterMap_cons, List.filter_cons, h1, ih] <;>
        cases f.parse <;> simp_all [Indexer.load_markdown_docs]
  · intro hall
    induction files with
    | nil => rfl
    | cons f fs ih =>
      have hf : ¬(wm < f.mtime) := by
        have := hall f (List.mem_cons_self f fs)
        omega
      have ihr := ih (fun g hg => hall g (List.mem_cons_of_mem f hg))
      by_cases h1 : Indexer.strEndsWith f.filename ".md" = true <;>
        simp_all [Indexer.load_markdown_docs_since, List.filterMap_cons]
  · intro st₁ st₂
    simp only [Indexer.update_journal_index, himp, eq_self_iff_true, if_true]
    unfold Indexer.indexFlow
    simp only [eq_self_iff_true, if_true, not_true, false_and, if_false]
    by_cases h2 : RagSearch.split_docs (Indexer.load_markdown_docs env.files) = []
    · rw [if_pos h2, if_pos h2]; exact ⟨rfl, rfl⟩
    · rw [if_neg h2, if_neg h2]
      by_cases h3 : ¬(env.embedInitOk = true ∧ env.storeInitOk = true)
      · rw [if_pos h3, if_pos h3]; exact ⟨rfl, rfl⟩
      · rw [if_neg h3, if_neg h3]
        rcases hicr : env.indexChunksResult with e | b
        · simp [hicr]
        · cases b <;> simp [hicr]

/-- C8, witness: a single markdown file older than a future watermark is
not selected. -/
theorem selection_policy_mtime_filter_witness :
    (∀ f ∈ [(⟨"a.md", "a.md", 5, some ⟨[], ['h']⟩⟩ : MdFile)], f.mtime ≤ 10) ∧
    Indexer.load_markdown_docs_since [⟨"a.md", "a.md", 5, some ⟨[], ['h']⟩⟩] 10 = [] :=
  ⟨by decide,
   (selection_policy_mtime_filter [⟨"a.md", "a.md", 5, some ⟨[], ['h']⟩⟩] 10
      ⟨[], true, true, .ok true, 0⟩).2.2.1 (by decide)⟩

/-- The expansion loop emits nothing once the target count is reached. -/
theorem expandGo_stop (getFn : String → Except Unit (List Record)) (n : Int)
    (cands : List Candidate) (seen : List String) (added : Int) (h : added ≥ n) :
    expandGo getFn n cands seen added = [] := by
  cases cands with
  | nil => rfl
  | cons c rest => simp [expandGo, h]

/-- One unfolding of the expansion loop at an unseen source below the target
count (the post-emission break is equivalent to the next iteration's entry
check). -/
theorem expandGo_cons_new (getFn : String → Except Unit (List Record)) (n : Int)
    (c : Candidate) (rest : List Candidate) (seen : List String) (added : Int)
    (h1 : ¬added ≥ n) (h2 : srcKey c ∉ seen) :
    expandGo getFn n (c :: rest) seen added =
      expandCandidate getFn c :: expandGo getFn n rest (srcKey c :: seen) (added + 1) := by
  by_cases h3 : added + 1 ≥ n
  · simp [expandGo, h1, h2, h3, expandGo_stop getFn n rest (srcKey c :: seen) (added + 1) h3]
  · simp [expandGo, h1, h2, h3]

/-- The expansion loop's output length is the minimum of the remaining
budget and the number of not-yet-seen distinct sources among the remaining
candidates. -/
theorem expandGo_length (getFn : String → Except Unit (List Record)) (n : Int) :
    ∀ (cands : List Candidate) (seen : List String) (added : Int), added ≤ n →
      ((expandGo getFn n cands seen added).length : Int) =
        min (n - added) ((countNew cands seen : Nat) : Int) := by
  intro cands
  induction cands with
  | nil =>
    intro seen added h
    simp only [expandGo, List.length_nil, countNew, Nat.cast_zero, Nat.cast_ofNat]
    omega
  | cons c rest ih =>
    intro seen added h
    by_cases h1 : added ≥ n
    · rw [expandGo_stop getFn n _ seen added h1]
      simp only [List.length_nil, Nat.cast_zero]
      omega
    · by_cases h2 : srcKey c ∈ seen
      · have he : expandGo getFn n (c :: rest) seen added = expandGo getFn n rest seen added := by
          simp [expandGo, h1, h2]
        have hcn : countNew (c :: rest) seen = countNew rest seen := by
          simp [countNew, h2]
        rw [he, hcn]
        exact ih seen added h
      · rw [expandGo_cons_new getFn n c rest seen added h1 h2]
        have hcn : countNew (c :: rest) seen = countNew rest (srcKey c :: seen) + 1 := by
          simp [countNew, h2]
        have ihh := ih (srcKey c :: seen) (added + 1) (by omega)
        simp only [List.length_cons, hcn]
        push_cast
        push_cast at ihh
        omega

/-- `countNew` counts the distinct source keys not yet seen. -/
theorem countNew_eq_card (cands : List Candidate) : ∀ seen : List String,
    countNew cands seen = (((cands.map srcKey).toFinset) \ seen.toFinset).card := by
  induction cands with
  | nil => intro seen; simp [countNew]
  | cons c rest ih =>
    intro seen
    by_cases h : srcKey c ∈ seen
    · have hmem : srcKey c ∈ seen.toFinset := List.mem_toFinset.2 h
      have he : insert (srcKey c) ((rest.map srcKey).toFinset) \ seen.toFinset =
          (rest.map srcKey).toFinset \ seen.toFinset := by
        ext x
        simp only [Finset.mem_sdiff, Finset.mem_insert]
        constructor
        · rintro ⟨hx | hx, hx2⟩
          · exact absurd (hx ▸ hmem) hx2
          · exact ⟨hx, hx2⟩
        · rintro ⟨hx, hx2⟩; exact ⟨Or.inr hx, hx2⟩
      simp [countNew, h, ih, List.toFinset_cons, he]
    · have he1 : insert (srcKey c) ((rest.map srcKey).toFinset) \ seen.toFinset =
          insert (srcKey c) ((rest.map srcKey).toFinset \ seen.toFinset) := by
        ext x
        simp only [Finset.mem_sdiff, Finset.mem_insert]
        constructor
        · rintro ⟨hx | hx, hx2⟩
          · exact Or.inl hx
          · exact Or.inr ⟨hx, hx2⟩
        · rintro (hx | ⟨hx, hx2⟩)
          · exact ⟨Or.inl hx, hx ▸ fun hc => h (List.mem_toFinset.1 hc)⟩
          · exact ⟨Or.inr hx, hx2⟩
      have he2 : (rest.map srcKey).toFinset \ insert (srcKey c) seen.toFinset =
          ((rest.map srcKey).toFinset \ seen.toFinset).erase (srcKey c) := by
        ext x
        simp only [Finset.mem_sdiff, Finset.mem_erase, Finset.mem_insert]
        tauto
      have hcard : (insert (srcKey c) ((rest.map srcKey).toFinset \ seen.toFinset)).card =
          (((rest.map srcKey).toFinset \ seen.toFinset).erase (srcKey c)).card + 1 := by
        by_cases hs : srcKey c ∈ (rest.map srcKey).toFinset \ seen.toFinset
        · rw [Finset.insert_eq_self.2 hs, Finset.card_erase_of_mem hs]
          have : 0 < ((rest.map srcKey).toFinset \ seen.toFinset).card :=
            Finset.card_pos.2 ⟨srcKey c, hs⟩
          omega
        · rw [Finset.card_insert_of_not_mem hs, Finset.erase_eq_of_not_mem hs]
      simp only [countNew, if_neg h, ih, List.map_cons, List.toFinset_cons, he1, hcard, he2]

/-- `expand_context_for_results` returns `min n (distinct sources)` entries. -/
theorem expand_context_length (getFn : String → Except Unit (List Record)) (n : Int)
    (cands : List Candidate) (h : 1 ≤ n) :
    ((expand_context_for_results getFn cands n).length : Int) =
      min n ((countNew cands [] : Nat) : Int) := by
  by_cases hc : cands = []
  · subst hc
    simp [expand_context_for_results, countNew]
    omega
  · have hlen := expandGo_length getFn n cands [] 0 (by omega)
    simp only [sub_zero] at hlen
    unfold expand_context_for_results
    rw [if_neg hc]
    have hle : ((expandGo getFn n cands [] 0).length : Int) ≤ n := by
      rw [hlen]; omega
    rw [if_neg (not_lt.2 hle)]
    exact hlen

/-- The two final truncations of `perform_enhanced_rag_query` do not change
the length of a list already within the budget. -/
theorem truncs_length (l : List FormattedResult) (n : Int) (h2 : (l.length : Int) ≤ n) :
    ((if ((if (l.length : Int) > n then l.take n.toNat else l).length : Int) ≠ n
       then (if (l.length : Int) > n then l.take n.toNat else l).take n.toNat
       else (if (l.length : Int) > n then l.take n.toNat else l)).length) = l.length := by
  rw [if_neg (not_lt.2 h2)]
  by_cases hne : ((l.length : Int) ≠ n)
  · rw [if_pos hne, List.length_take]
    omega
  · rw [if_neg hne]

/-- C1: the retriever returns exactly `min(k, number of distinct sources
among the candidates the similarity query returns)` results: the over-fetch
requests `2·k` candidates, the expansion loop emits one result per unseen
source up to `k`, and the final truncations never shorten a list already
within budget. -/
theorem search_length_eq_min_distinct (ranking : List Candidate) (records : List Record)
    (n : Int) (h : 1 ≤ n) :
    ((LegacyMcp.perform_enhanced_rag_query ranking records n).length : Int) =
      min n ((LegacyMcp.distinctSourceCount (ranking.take (n * 2).toNat) : Nat) : Int) := by
  have he := expand_context_length (fun src => .ok (chromaGet records src)) n
    (ranking.take (n * 2).toNat) h
  have hcc : LegacyMcp.distinctSourceCount (ranking.take (n * 2).toNat) =
      countNew (ranking.take (n * 2).toNat) [] := by
    rw [LegacyMcp.distinctSourceCount, countNew_eq_card]
    simp
  have hlenf : ((((expand_context_for_results (fun src => .ok (chromaGet records src))
      (ranking.take (n * 2).toNat) n).map formatOne).length : Int)) ≤ n := by
    rw [List.length_map, he]; omega
  have htr := truncs_length ((expand_context_for_results (fun src => .ok (chromaGet records src))
      (ranking.take (n * 2).toNat) n).map formatOne) n hlenf
  simp only [LegacyMcp.perform_enhanced_rag_query]
  rw [htr, List.length_map, he, hcc]

/-- C1, witness: three candidates over two sources with `k = 2`. -/
theorem search_length_eq_min_distinct_witness :
    (1 : Int) ≤ 2 ∧
    ((LegacyMcp.perform_enhanced_rag_query
        [⟨"a.md_0", ['t'], [("source", "a.md")], 1⟩,
         ⟨"a.md_1", ['u'], [("source", "a.md")], 2⟩,
         ⟨"b.md_0", ['v'], [("source", "b.md")], 3⟩] [] 2).length : Int) =
      min 2 ((LegacyMcp.distinctSourceCount
        ([⟨"a.md_0", ['t'], [("source", "a.md")], 1⟩,
          ⟨"a.md_1", ['u'], [("source", "a.md")], 2⟩,
          ⟨"b.md_0", ['v'], [("source", "b.md")], 3⟩].take ((2 : Int) * 2).toNat) : Nat) : Int) :=
  ⟨by decide,
   search_length_eq_min_distinct
     [⟨"a.md_0", ['t'], [("source", "a.md")], 1⟩,
      ⟨"a.md_1", ['u'], [("source", "a.md")], 2⟩,
      ⟨"b.md_0", ['v'], [("source", "b.md")], 3⟩] [] 2 (by decide)⟩

/-- A source-key-preserving fact: expanding a candidate (with the pure
collection fetch) keeps its formatted `source` field, because a fetched
substitute record matches the candidate's source by the `get` filter. -/
theorem formatOne_expand_source (records : List Record) (c : Candidate)
    (h : (mget c.metadata "source").isSome = true) :
    (formatOne (expandCandidate (fun src => .ok (chromaGet records src)) c)).source =
      srcKey c := by
  obtain ⟨v, hv⟩ := Option.isSome_iff_exists.1 h
  have hkey : srcKey c = v := by simp [srcKey, mgetD, hv]
  unfold expandCandidate
  by_cases hpt : mget c.metadata "chunk_type" = some "partial_entry"
  · rw [if_pos hpt]
    cases hg : chromaGet records (srcKey c) with
    | nil =>
      simp only [hg]
      simp [formatOne, mgetD, hv, hkey]
    | cons r rs =>
      have hr : r ∈ chromaGet records (srcKey c) := by
        rw [hg]; exact List.mem_cons_self r rs
      have hsrc : mget r.metadata "source" = some (srcKey c) :=
        (of_decide_eq_true (List.mem_filter.1 hr).2).1
      simp only [hg]
      simp [formatOne, mgetD, hsrc]
  · rw [if_neg hpt]
    simp [formatOne, mgetD, hv, hkey]

/-- The expansion loop (with the pure collection fetch) emits results whose
formatted sources are pairwise distinct and disjoint from the seen set,
provided every candidate carries a `source` metadata key. -/
theorem expandGo_sources_nodup (records : List Record) (n : Int) :
    ∀ (cands : List Candidate) (seen : List String) (added : Int),
      (∀ c ∈ cands, (mget c.metadata "source").isSome = true) →
      (((expandGo (fun src => .ok (chromaGet records src)) n cands seen added).map
          (fun e => (formatOne e).source)).Nodup ∧
        ∀ x ∈ (expandGo (fun src => .ok (chromaGet records src)) n cands seen added).map
          (fun e => (formatOne e).source), x ∉ seen) := by
  intro cands
  induction cands with
  | nil => intro seen added _; simp [expandGo]
  | cons c rest ih =>
    intro seen added h
    by_cases h1 : added ≥ n
    · rw [expandGo_stop _ n _ seen added h1]; simp
    · by_cases h2 : srcKey c ∈ seen
      · have he : expandGo (fun src => .ok (chromaGet records src)) n (c :: rest) seen added =
            expandGo (fun src => .ok (chromaGet records src)) n rest seen added := by
          simp [expandGo, h1, h2]
        rw [he]
        exact ih seen added (fun d hd => h d (List.mem_cons_of_mem c hd))
      · rw [expandGo_cons_new _ n c rest seen added h1 h2]
        obtain ⟨ihn, ihs⟩ := ih (srcKey c :: seen) (added + 1)
          (fun d hd => h d (List.mem_cons_of_mem c hd))
        have hsrc := formatOne_expand_source records c (h c (List.mem_cons_self c rest))
        simp only [List.map_cons, List.nodup_cons, hsrc]
        refine ⟨⟨?_, ihn⟩, ?_⟩
        · intro hmem
          exact (ihs _ hmem) (List.mem_cons_self _ _)
        · intro x hx
          rcases List.mem_cons.1 hx with hx | hx
          · rw [hx]; exact h2
          · exact fun hsn => (ihs x hx) (List.mem_cons_of_mem _ hsn)

/-- `Nodup` of a mapped list survives the source's conditional truncation. -/
theorem nodup_map_ite_take {α β : Type} (P : Prop) [Decidable P] (k : Nat)
    (l : List α) (f : α → β) (h : (l.map f).Nodup) :
    ((if P then l.take k else l).map f).Nodup := by
  split
  · rw [List.map_take]
    exact List.Nodup.sublist (List.take_sublist k (l.map f)) h
  · exact h

/-- C4: no two results of one search share a `source` — the loop skips every
candidate whose source was already emitted — provided every ranked candidate
carries a `source` metadata key (which the indexer guarantees by defaulting
`source` to the file's relative path). -/
theorem search_sources_nodup (ranking : List Candidate) (records : List Record)
    (n : Int)
    (hsrc : ∀ c ∈ ranking, (mget c.metadata "source").isSome = true) :
    ((LegacyMcp.perform_enhanced_rag_query ranking records n).map
      LegacyMcp.FormattedResult.source).Nodup := by
  simp only [LegacyMcp.perform_enhanced_rag_query]
  apply nodup_map_ite_take
  apply nodup_map_ite_take
  rw [List.map_map]
  unfold expand_context_for_results
  split
  · next hemp =>
      rw [hemp]
      simp
  · have h' : ∀ c ∈ ranking.take (n * 2).toNat, (mget c.metadata "source").isSome = true :=
      fun c hc => hsrc c (List.take_subset _ _ hc)
    have hn := (expandGo_sources_nodup records n (ranking.take (n * 2).toNat) [] 0 h').1
    apply nodup_map_ite_take
    simpa [Function.comp] using hn

/-- C4, witness: three candidates over two sources (all with `source`
metadata) yield results with pairwise distinct sources. -/
theorem search_sources_nodup_witness :
    (∀ c ∈ [(⟨"a.md_0", ['t'], [("source", "a.md")], 1⟩ : Candidate),
            ⟨"a.md_1", ['u'], [("source", "a.md")], 2⟩,
            ⟨"b.md_0", ['v'], [("source", "b.md")], 3⟩],
      (mget c.metadata "source").isSome = true) ∧
    ((LegacyMcp.perform_enhanced_rag_query
        [⟨"a.md_0", ['t'], [("source", "a.md")], 1⟩,
         ⟨"a.md_1", ['u'], [("source", "a.md")], 2⟩,
         ⟨"b.md_0", ['v'], [("source", "b.md")], 3⟩] [] 2).map
      LegacyMcp.FormattedResult.source).Nodup :=
  ⟨by decide,
   search_sources_nodup
     [⟨"a.md_0", ['t'], [("source", "a.md")], 1⟩,
      ⟨"a.md_1", ['u'], [("source", "a.md")], 2⟩,
      ⟨"b.md_0", ['v'], [("source", "b.md")], 3⟩] [] 2 (by decide)⟩

/-! ## The fixed-stride behaviour of the splitter on whitespace-free text -/

theorem sing_nil : sing ([] : Text) = [] := rfl

theorem sing_cons (c : Char) (s : Text) : sing (c :: s) = [c] :: sing s := rfl

theorem sing_append (a b : Text) : sing (a ++ b) = sing a ++ sing b :=
  List.map_append _ a b

theorem sing_eq_nil (s : Text) : sing s = [] ↔ s = [] := by simp [sing]

/-- `str.strip()` is the identity on whitespace-free text. -/
theorem pyStrip_eq_self (s : Text) (h : ∀ c ∈ s, pyIsSpace c = false) :
    pyStrip s = s := by
  have h1 : s.dropWhile pyIsSpace = s := by
    cases s with
    | nil => rfl
    | cons a t => simp [List.dropWhile_cons, h a (List.mem_cons_self a t)]
  have h2 : s.reverse.dropWhile pyIsSpace = s.reverse := by
    cases hr : s.reverse with
    | nil => rfl
    | cons a t =>
      have ha : a ∈ s := by
        rw [← List.mem_reverse, hr]; exact List.mem_cons_self a t
      simp [List.dropWhile_cons, h a ha]
  unfold pyStrip
  rw [h1, h2, List.reverse_reverse]

/-- Joining single-character splits with the empty separator restores the
text. -/
theorem pyJoin_nil_sing (l : Text) : pyJoin [] (sing l) = l := by
  induction l with
  | nil => rfl
  | cons c t ih =>
    cases t with
    | nil => rfl
    | cons c' t' =>
      show pyJoin [] ([c] :: sing (c' :: t')) = c :: c' :: t'
      rw [sing_cons]
      show [c] ++ [] ++ pyJoin [] ([c'] :: sing t') = c :: c' :: t'
      rw [← sing_cons, ih]
      rfl

/-- `_join_docs` on whitespace-free single-character splits. -/
theorem joinDocs_sing (l : Text) (h : ∀ c ∈ l, pyIsSpace c = false) :
    joinDocs (sing l) [] = if l = [] then none else some l := by
  simp only [joinDocs, pyJoin_nil_sing, pyStrip_eq_self l h]

/-- A separator starting with a whitespace character never occurs in
whitespace-free text. -/
theorem containsSub_head_ws (w : Char) (tl : Text) (s : Text) (hw : pyIsSpace w = true)
    (hws : ∀ c ∈ s, pyIsSpace c = false) : containsSub (w :: tl) s = false := by
  induction s with
  | nil => rfl
  | cons c rest ih =>
    have hc : (w == c) = false := by
      apply beq_eq_false_iff_ne.2
      intro he
      have hf := hws c (List.mem_cons_self c rest)
      rw [← he, hw] at hf
      exact Bool.noConfusion hf
    simp only [containsSub, isPre, hc, Bool.false_and, Bool.false_or]
    exact ih (fun d hd => hws d (List.mem_cons_of_mem c hd))

/-- The separator-selection loop picks the empty separator on
whitespace-free text. -/
theorem chooseSep_plain (s : Text) (h : ∀ c ∈ s, pyIsSpace c = false) :
    chooseSep defaultSeparators s (defaultSeparators.getLastD []) = ([], []) := by
  have c1 := containsSub_head_ws '\n' ['\n'] s (by decide) h
  have c2 := containsSub_head_ws '\n' [] s (by decide) h
  have c3 := containsSub_head_ws ' ' [] s (by decide) h
  simp [defaultSeparators, chooseSep, c1, c2, c3]

/-- A fold of the good-splits accumulator over only short-enough splits just
appends them all. -/
theorem foldl_good_run (chunkSize : Int)
    (step : (List Text × List Text) → Text → (List Text × List Text))
    (hstep : ∀ st x, (x.length : Int) < chunkSize → step st x = (st.1, st.2 ++ [x])) :
    ∀ (l : List Text) (acc good : List Text),
      (∀ x ∈ l, (x.length : Int) < chunkSize) →
      l.foldl step (acc, good) = (acc, good ++ l) := by
  intro l
  induction l with
  | nil => intro acc good _; simp
  | cons x t ih =>
    intro acc good hall
    rw [List.foldl_cons, hstep (acc, good) x (hall x (List.mem_cons_self x t))]
    rw [ih acc (good ++ [x]) (fun y hy => hall y (List.mem_cons_of_mem x hy))]
    simp

/-- The `[]` equation of `mergeGo`. -/
theorem mergeGo_nil (cs co sl : Int) (sep : Text) (docs cur : List Text) (total : Int) :
    mergeGo cs co sl sep [] docs cur total = docs ++ (joinDocs cur sep).toList := rfl

/-- The `cons` equation of `mergeGo`. -/
theorem mergeGo_cons (cs co sl : Int) (sep : Text) (d : Text) (rest docs cur : List Text)
    (total : Int) :
    mergeGo cs co sl sep (d :: rest) docs cur total =
      if total + (d.length : Int) + (if cur ≠ [] then sl else 0) > cs then
        if cur ≠ [] then
          mergeGo cs co sl sep rest (docs ++ (joinDocs cur sep).toList)
            ((popLoop cs co sl (d.length : Int) cur total).1 ++ [d])
            ((popLoop cs co sl (d.length : Int) cur total).2 + (d.length : Int) +
              (if (popLoop cs co sl (d.length : Int) cur total).1 ≠ [] then sl else 0))
        else
          mergeGo cs co sl sep rest docs (cur ++ [d])
            (total + (d.length : Int) + (if cur ≠ [] then sl else 0))
      else
        mergeGo cs co sl sep rest docs (cur ++ [d])
          (total + (d.length : Int) + (if cur ≠ [] then sl else 0)) := rfl

/-- The `cons` equation of `popLoop`. -/
theorem popLoop_cons (cs co sl dl : Int) (x : Text) (rest : List Text) (total : Int) :
    popLoop cs co sl dl (x :: rest) total =
      if total > co ∨ (total + dl + (if rest ≠ [] then sl else 0) > cs ∧ total > 0) then
        popLoop cs co sl dl rest (total - ((x.length : Int) + (if rest ≠ [] then sl else 0)))
      else (x :: rest, total) := rfl

/-- While the joined length stays within the chunk size, the merge loop only
accumulates single-character splits. -/
theorem mergeGo_push : ∀ (xs cur ys : Text) (docs : List Text),
    cur.length + xs.length ≤ 500 →
    mergeGo 500 50 0 [] (sing (xs ++ ys)) docs (sing cur) (cur.length : Int) =
      mergeGo 500 50 0 [] (sing ys) docs (sing (cur ++ xs)) ((cur ++ xs).length : Int) := by
  intro xs
  induction xs with
  | nil => intro cur ys docs _; simp
  | cons x t ih =>
    intro cur ys docs h
    rw [List.cons_append, sing_cons, mergeGo_cons]
    simp only [ite_self]
    have hx1 : (([x] : Text).length : Int) = 1 := by simp
    rw [hx1]
    rw [if_neg (by
      have hb : cur.length + (t.length + 1) ≤ 500 := by simpa using h
      omega)]
    have e1 : sing cur ++ [[x]] = sing (cur ++ [x]) := by
      rw [sing_append]; rfl
    have e2 : ((cur.length : Int) + 1 + 0) = ((cur ++ [x]).length : Int) := by
      simp
    rw [e1, e2, ih (cur ++ [x]) ys docs (by
      simp only [List.length_append, List.length_cons, List.length_singleton,
        List.length_nil] at h ⊢
      omega)]
    have e3 : (cur ++ [x]) ++ t = cur ++ (x :: t) := by simp
    rw [e3]

/-- The pop loop on single-character splits keeps exactly the last 50
characters. -/
theorem popLoop_sing : ∀ ds : Text, 50 ≤ ds.length →
    popLoop 500 50 0 1 (sing ds) (ds.length : Int) =
      (sing (ds.drop (ds.length - 50)), 50) := by
  intro ds
  induction ds with
  | nil => intro h; simp at h
  | cons d t ih =>
    intro h
    rw [sing_cons, popLoop_cons]
    simp only [ite_self]
    have hd1 : (([d] : Text).length : Int) = 1 := by simp
    rw [hd1]
    by_cases h50 : 50 < t.length + 1
    · rw [if_pos (Or.inl (by simp; omega))]
      have e1 : (((d :: t).length : Int) - (1 + 0)) = (t.length : Int) := by simp
      rw [e1, ih (by omega)]
      have e2 : (d :: t).drop ((d :: t).length - 50) = t.drop (t.length - 50) := by
        rw [List.length_cons]
        have e : t.length + 1 - 50 = (t.length - 50) + 1 := by omega
        rw [e, List.drop_succ_cons]
      rw [e2]
    · have hlen : t.length + 1 = 50 := by
        simp only [List.length_cons] at h
        omega
      rw [if_neg (by
        simp only [List.length_cons, hlen]
        norm_num)]
      have e3 : (d :: t).length - 50 = 0 := by
        simp only [List.length_cons, hlen]
      rw [e3, List.drop_zero]
      have e4 : ((d :: t).length : Int) = 50 := by
        simp only [List.length_cons, hlen]; norm_num
      rw [e4]
      rfl

/-- `strideChunksAux` does not depend on the fuel once it covers the text
length. -/
theorem strideChunksAux_fuel : ∀ (f1 f2 : Nat) (s : Text),
    s.length ≤ f1 → s.length ≤ f2 →
    strideChunksAux 500 50 f1 s = strideChunksAux 500 50 f2 s := by
  intro f1
  induction f1 with
  | zero =>
    intro f2 s h1 _
    have hnil : s = [] := List.length_eq_zero.1 (by omega)
    subst hnil
    simp [strideChunksAux]
  | succ f ih =>
    intro f2 s h1 h2
    cases s with
    | nil => simp [strideChunksAux]
    | cons c t =>
      cases f2 with
      | zero => simp at h2
      | succ f2' =>
        simp only [strideChunksAux]
        by_cases hle : (c :: t).length ≤ 500
        · rw [if_pos hle, if_pos hle]
        · rw [if_neg hle, if_neg hle]
          congr 1
          apply ih
          · simp only [List.length_drop]
            simp only [List.length_cons] at h1 ⊢
            omega
          · simp only [List.length_drop]
            simp only [List.length_cons] at h2 ⊢
            omega

/-- Unfolding of the spec's stride chunking past one chunk. -/
theorem strideChunks_gt (s : Text) (h : 500 < s.length) :
    strideChunks s = s.take 500 :: strideChunks (s.drop 450) := by
  cases s with
  | nil => simp at h
  | cons c t =>
    show strideChunksAux 500 50 ((c :: t).length) (c :: t) = _
    rw [List.length_cons]
    simp only [strideChunksAux]
    rw [if_neg (by simp only [List.length_cons] at h ⊢; omega)]
    have e : (500 : Nat) - 50 = 450 := rfl
    rw [e]
    congr 1
    unfold strideChunks
    apply strideChunksAux_fuel
    · simp only [List.length_drop, List.length_cons]
      simp only [List.length_cons] at h
      omega
    · exact le_refl _

/-- The merge loop on the single-character splits of a whitespace-free text
is exactly the spec's fixed-stride chunking. -/
theorem mergeGo_sing_stride : ∀ (N : Nat) (s : Text), s.length ≤ N →
    (∀ c ∈ s, pyIsSpace c = false) → ∀ docs : List Text,
    mergeGo 500 50 0 [] (sing s) docs [] 0 = docs ++ strideChunks s := by
  intro N
  induction N with
  | zero =>
    intro s hs _ docs
    have hnil : s = [] := List.length_eq_zero.1 (by omega)
    subst hnil
    rw [sing_nil, mergeGo_nil]
    simp [joinDocs, pyJoin, pyStrip, strideChunks, strideChunksAux]
  | succ N ih =>
    intro s hs hws docs
    by_cases hlen : s.length ≤ 500
    · have h0 : mergeGo 500 50 0 [] (sing s) docs [] 0 =
          mergeGo 500 50 0 [] (sing ([] : Text)) docs (sing s) ((s.length : Nat) : Int) := by
        have hp := mergeGo_push s [] [] docs (by simpa using hlen)
        simpa using hp
      rw [h0, sing_nil, mergeGo_nil, joinDocs_sing s hws]
      by_cases hnil : s = []
      · subst hnil
        simp [strideChunks, strideChunksAux]
      · rw [if_neg hnil]
        have hst : strideChunks s = [s] := by
          cases s with
          | nil => exact absurd rfl hnil
          | cons c t =>
            show strideChunksAux 500 50 ((c :: t).length) (c :: t) = [c :: t]
            rw [List.length_cons]
            simp only [strideChunksAux]
            rw [if_pos (by simpa using hlen)]
        rw [hst]
        rfl
    · push_neg at hlen
      have htk : (s.take 500).length = 500 := by
        simp only [List.length_take]
        omega
      have hws500 : ∀ c ∈ s.take 500, pyIsSpace c = false :=
        fun c hc => hws c (List.take_subset _ _ hc)
      have htk0 : s.take 500 ≠ [] := by
        intro hh
        rw [hh] at htk
        simp at htk
      have h0 : mergeGo 500 50 0 [] (sing s) docs [] 0 =
          mergeGo 500 50 0 [] (sing (s.drop 500)) docs (sing (s.take 500))
            (((s.take 500).length : Nat) : Int) := by
        have hp := mergeGo_push (s.take 500) [] (s.drop 500) docs (by simp [htk])
        rw [List.take_append_drop] at hp
        simpa using hp
      rw [h0, htk]
      obtain ⟨c, rest, hd⟩ : ∃ c rest, s.drop 500 = c :: rest := by
        cases hdd : s.drop 500 with
        | nil =>
          exfalso
          have hcl := congrArg List.length hdd
          simp only [List.length_drop, List.length_nil] at hcl
          omega
        | cons c r => exact ⟨c, r, rfl⟩
      rw [hd, sing_cons, mergeGo_cons]
      simp only [ite_self]
      have hx1 : (([c] : Text).length : Int) = 1 := by simp
      rw [hx1]
      rw [if_pos (by norm_num)]
      rw [if_pos (by
        simp only [ne_eq, sing_eq_nil]
        exact htk0)]
      rw [joinDocs_sing _ hws500, if_neg htk0]
      have hpop := popLoop_sing (s.take 500) (by rw [htk]; norm_num)
      rw [htk] at hpop
      have e450 : (500 : Nat) - 50 = 450 := rfl
      rw [e450] at hpop
      rw [hpop]
      dsimp only
      have hdl : ((s.take 500).drop 450).length = 50 := by
        simp only [List.length_drop, htk]
      have e1 : sing ((s.take 500).drop 450) ++ [[c]] =
          sing ((s.take 500).drop 450 ++ [c]) := by
        rw [sing_append]; rfl
      rw [e1]
      have hu : ((s.take 500).drop 450 ++ [c]).length = 51 := by
        simp [hdl]
      have hp2 := mergeGo_push ((s.take 500).drop 450 ++ [c]) [] rest
        (docs ++ [s.take 500]) (by simp [hu])
      simp only [List.nil_append, List.length_nil, Nat.cast_zero, sing_nil] at hp2
      rw [hu] at hp2
      have e51 : ((50 : Int) + 1 + 0) = ((51 : Nat) : Int) := by norm_num
      have e52 : (some (s.take 500)).toList = [s.take 500] := rfl
      rw [e51, e52, ← hp2]
      have hsplit : (s.take 500).drop 450 ++ [c] ++ rest = s.drop 450 := by
        have ht : (s.take 500).drop 450 = (s.drop 450).take 50 := by
          have := List.take_drop 450 50 s
          rw [show (450 : Nat) + 50 = 500 from rfl] at this
          exact this.symm
        rw [List.append_assoc, ht]
        have hc : ([c] : Text) ++ rest = c :: rest := rfl
        rw [hc, ← hd]
        have := List.drop_take_append_drop s 450 50
        rw [show (450 : Nat) + 50 = 500 from rfl] at this
        exact this
      rw [hsplit]
      have hrec := ih (s.drop 450)
        (by simp only [List.length_drop]; omega)
        (fun d hdm => hws d (List.drop_subset _ _ hdm))
        (docs ++ [s.take 500])
      rw [hrec, strideChunks_gt s hlen]
      simp

/-- `_split_text_with_regex` with the empty separator yields the
single-character splits. -/
theorem splitWithSep_nil (s : Text) : splitWithSep [] s = sing s := rfl

/-- C5 amended: on a whitespace-free body the recursive splitter coincides
with the specification's fixed-stride chunking (`strideChunks`): each chunk
is the longest prefix of at most `CHUNK_SIZE = 500` characters of the
remaining text, the start advances by `CHUNK_SIZE − CHUNK_OVERLAP = 450`,
and consecutive chunks overlap by exactly `CHUNK_OVERLAP = 50` characters.
On general bodies the splitter instead prefers paragraph/newline/space
boundaries (see the counterexample). -/
theorem split_fixed_stride_on_plain_text (s : Text)
    (h : ∀ c ∈ s, RagSearch.pyIsSpace c = false) :
    RagSearch.split_text s = RagSearch.strideChunks s := by
  have hchoose := chooseSep_plain s h
  show splitTextAux CHUNK_SIZE CHUNK_OVERLAP (3 + 1) defaultSeparators s = strideChunks s
  simp only [splitTextAux, hchoose, splitWithSep_nil]
  simp only [List.isEmpty_nil, Bool.not_true, Bool.false_eq_true, if_false]
  rw [foldl_good_run CHUNK_SIZE _ (fun st x hx => by simp only [if_pos hx])
    (sing s) [] []
    (by
      intro x hx
      obtain ⟨cc, _, hcc⟩ := List.mem_map.1 hx
      rw [← hcc]
      show ((1 : Nat) : Int) < CHUNK_SIZE
      simp [CHUNK_SIZE])]
  simp only [List.nil_append]
  by_cases hnil : s = []
  · subst hnil
    simp [strideChunks, strideChunksAux, sing_nil]
  · rw [if_neg (by simp only [ne_eq, sing_eq_nil]; exact hnil)]
    show merge_splits CHUNK_SIZE CHUNK_OVERLAP (sing s) [] = strideChunks s
    simp only [merge_splits, CHUNK_SIZE, CHUNK_OVERLAP, List.length_nil, Nat.cast_zero]
    exact mergeGo_sing_stride s.length s (le_refl _) h []

/-- C5 amended, witness: a 1000-character whitespace-free body splits into
the stride chunks (500, 500 and 100 characters, overlapping by 50). -/
theorem split_fixed_stride_on_plain_text_witness :
    (∀ c ∈ List.replicate 1000 'a', RagSearch.pyIsSpace c = false) ∧
    RagSearch.split_text (List.replicate 1000 'a') =
      RagSearch.strideChunks (List.replicate 1000 'a') :=
  ⟨fun c hc => by rw [List.eq_of_mem_replicate hc]; decide,
   split_fixed_stride_on_plain_text (List.replicate 1000 'a')
     (fun c hc => by rw [List.eq_of_mem_replicate hc]; decide)⟩

end MdRagMcp
